import Mathlib

/-!
Shallow embedding of `src/compiler/collections.ts` (map/set shims and the
derived map utilities) and proofs about its operations.

Modelling conventions:
* A JavaScript value of type `V | undefined` is modelled as `Option V`,
  with `none` standing for `undefined`.
* A map's contents are an association list `List (K × Option V)` in
  iteration order; a stored value of `none` models a key explicitly set
  to `undefined` (distinguishable from absence via `has`).
* `WF m` states that the keys are duplicate-free, which holds for every
  map reachable through the public operations.
-/

set_option autoImplicit false
set_option linter.unusedSectionVars false

namespace TsCollections

variable {K V U A : Type} [DecidableEq K] [DecidableEq V] [DecidableEq A]

/-- The contents of a map: entries in iteration order, values possibly
the JavaScript `undefined` (modelled `none`). -/
abbrev Entries (K V : Type) := List (K × Option V)

/-- Well-formedness: keys occur at most once, as in any real map object. -/
def WF (m : Entries K V) : Prop := (m.map Prod.fst).Nodup

instance (m : Entries K V) : Decidable (WF m) := by
  unfold WF; infer_instance

/-- Model of `map.get(key)`: the stored value of the first entry for `key`, or
`undefined` (`none`) when the key is absent. -/
def mapGet : Entries K V → K → Option V
  | [], _ => none
  | (k', v) :: rest, k => if k' = k then v else mapGet rest k

/-- Model of `map.has(key)`: whether an entry for `key` exists. -/
def mapHas : Entries K V → K → Bool
  | [], _ => false
  | (k', _) :: rest, k => if k' = k then true else mapHas rest k

/-- Model of `map.set(key, value)`: overwrite the first entry for `key` in place
(keeping its iteration position, as the native Map does), or append a new
entry at the end. -/
def mapSet : Entries K V → K → Option V → Entries K V
  | [], k, v => [(k, v)]
  | (k', v') :: rest, k, v =>
    if k' = k then (k', v) :: rest else (k', v') :: mapSet rest k v

/-- Model of `map.delete(key)`: remove the entry for `key` (the first one, which is
the only one on well-formed maps). -/
def mapDelete : Entries K V → K → Entries K V
  | [], _ => []
  | (k', v') :: rest, k =>
    if k' = k then rest else (k', v') :: mapDelete rest k

/-- A JavaScript object as the shims use one: its own enumerable
properties (in insertion order) together with the property keys visible
through its prototype chain.  `Object.create(null)` yields
`protoKeys = []`. -/
structure JsObject (V : Type) where
  own : Entries String V
  protoKeys : List String

/-- Property write `obj[key] = value`: always writes an own property. -/
def objSet {V : Type} (o : JsObject V) (k : String) (v : Option V) : JsObject V :=
  { o with own := mapSet o.own k v }

/-- The `delete obj[key]` operator: removes the own property. -/
def objDeleteKey {V : Type} (o : JsObject V) (k : String) : JsObject V :=
  { o with own := mapDelete o.own k }

/-- The `key in obj` operator: true for an own property or for one
inherited from the prototype chain. -/
def objIn {V : Type} (o : JsObject V) (k : String) : Bool :=
  mapHas o.own k || o.protoKeys.contains k

/-- Property read `obj[key]` on the dictionary-mode objects used by the
shims, whose prototype is null: the own property's value, `undefined`
when absent. -/
def objGet {V : Type} (o : JsObject V) (k : String) : Option V :=
  mapGet o.own k

/-- Model of `createDictionaryModeObject()`: `Object.create(null)` (so no
prototype), followed by the dummy insert-then-delete of the key `"__"`
that forces dictionary mode. -/
def createDictionaryModeObject (V : Type) : JsObject V :=
  objDeleteKey (objSet { own := [], protoKeys := [] } "__" none) "__"

/-- The ES5 `ShimMap`, backed by a dictionary-mode object.  Keys are
stringified before being stored, so the model's key type is `String`. -/
structure ShimMap (V : Type) where
  data : JsObject V

namespace ShimMap

/-- Model of `new ShimMap()`. -/
def create (V : Type) : ShimMap V := ⟨createDictionaryModeObject V⟩

/-- Model of `ShimMap.get`: `this.data[key]`. -/
def get {V : Type} (m : ShimMap V) (k : String) : Option V := objGet m.data k

/-- Model of `ShimMap.has`: `key in this.data`. -/
def has {V : Type} (m : ShimMap V) (k : String) : Bool := objIn m.data k

/-- Model of `ShimMap.set`: `this.data[key] = value`. -/
def set {V : Type} (m : ShimMap V) (k : String) (v : Option V) : ShimMap V :=
  ⟨objSet m.data k v⟩

/-- Model of `ShimMap.delete`: test `has`, remove the own property when the key
was present, and return whether it had been present. -/
def delete {V : Type} (m : ShimMap V) (k : String) : ShimMap V × Bool :=
  let had := m.has k
  (if had then ⟨objDeleteKey m.data k⟩ else m, had)

end ShimMap

/-- The ES5 `ShimStringSet`, backed by a dictionary-mode object whose
stored values are the sentinel `true`. -/
structure ShimStringSet where
  data : JsObject Bool

namespace ShimStringSet

/-- Model of `new ShimStringSet()`. -/
def create : ShimStringSet := ⟨createDictionaryModeObject Bool⟩

/-- Model of `ShimStringSet.add`: `this.data[value] = true`. -/
def add (s : ShimStringSet) (v : String) : ShimStringSet :=
  ⟨objSet s.data v (some true)⟩

/-- Model of `ShimStringSet.has`: `value in this.data`. -/
def has (s : ShimStringSet) (v : String) : Bool := objIn s.data v

end ShimStringSet

/-- Modelled from the spec: the inherited method/property names of a
generic JavaScript object (`Object.prototype`); the spec requires that a
key equal to one of these still reads as absent from a dictionary-mode
record. -/
def objectPrototypeKeys : List String :=
  ["constructor", "hasOwnProperty", "isPrototypeOf", "propertyIsEnumerable",
   "toLocaleString", "toString", "valueOf"]

/-- Model of `findInMap` (ES6-iterator branch): walk the entries, returning the
first result of `f(value, key)` that is not `undefined`. -/
def findInMap : Entries K V → (Option V → K → Option U) → Option U
  | [], _ => none
  | (key, value) :: rest, f =>
    match f value key with
    | some result => some result
    | none => findInMap rest f

/-- Model of `findInMap` (shim branch): `forEach` over all entries, applying `f`
only while the accumulated result is still `undefined`. -/
def findInMapShim (m : Entries K V) (f : Option V → K → Option U) : Option U :=
  m.foldl
    (fun result kv =>
      match result with
      | some r => some r
      | none => f kv.2 kv.1)
    none

/-- Instrumented `findInMap`: additionally records, following the
source's control flow, the entries at which `f` is evaluated. -/
def findInMapCalls : Entries K V → (Option V → K → Option U) → Option U × Entries K V
  | [], _ => (none, [])
  | (key, value) :: rest, f =>
    match f value key with
    | some result => (some result, [(key, value)])
    | none =>
      let p := findInMapCalls rest f
      (p.1, (key, value) :: p.2)

/-- Instrumented shim branch of `findInMap`: records the entries at which
`f` is evaluated during the `forEach` pass. -/
def findInMapShimCalls (m : Entries K V) (f : Option V → K → Option U) :
    Option U × Entries K V :=
  m.foldl
    (fun acc kv =>
      match acc.1 with
      | some r => (some r, acc.2)
      | none => (f kv.2 kv.1, acc.2 ++ [kv]))
    (none, [])

/-- Model of `someInIterator(iterator, predicate)`: true at the first element
satisfying the predicate, false once the iterator is exhausted. -/
def someInIterator {T : Type} : List T → (T → Bool) → Bool
  | [], _ => false
  | x :: xs, p => if p x then true else someInIterator xs p

/-- Model of `someInMap` (ES6 branch): `someInIterator` over the entries. -/
def someInMap (m : Entries K V) (p : Option V → K → Bool) : Bool :=
  someInIterator m (fun kv => p kv.2 kv.1)

/-- Model of `someKeyInMap` (ES6 branch): `someInIterator` over the keys. -/
def someKeyInMap (m : Entries K V) (p : K → Bool) : Bool :=
  someInIterator (m.map Prod.fst) p

/-- Model of `setAndReturn(map, key, value)`: set the value, then return it. -/
def setAndReturn (m : Entries K V) (k : K) (v : Option V) : Option V × Entries K V :=
  (v, mapSet m k v)

/-- Model of `getOrUpdate(map, key, getValue)`, instrumented with the number of
calls made to `getValue`: return the existing value when `get` yields a
non-`undefined` value, otherwise compute, store and return
`getValue(key)`. -/
def getOrUpdate (m : Entries K V) (k : K) (getValue : K → Option V) :
    Option V × Entries K V × Nat :=
  match mapGet m k with
  | some value => (some value, m, 0)
  | none =>
    let p := setAndReturn m k (getValue k)
    (p.1, p.2, 1)

/-- Model of `getOrUpdateAndAllowUndefined(map, key, getValue)`, instrumented
likewise: tests presence with `has` instead of comparing `get`'s result
against `undefined`. -/
def getOrUpdateAndAllowUndefined (m : Entries K V) (k : K) (getValue : K → Option V) :
    Option V × Entries K V × Nat :=
  if mapHas m k then (mapGet m k, m, 0)
  else
    let p := setAndReturn m k (getValue k)
    (p.1, p.2, 1)

/-- Model of `tryDelete(map, key)`: when `get` yields a non-`undefined` value,
delete the key and return the value; otherwise return `undefined` and
leave the map untouched. -/
def tryDelete (m : Entries K V) (k : K) : Option V × Entries K V :=
  match mapGet m k with
  | some current => (some current, mapDelete m k)
  | none => (none, m)

/-- Modelled from the spec: `unorderedRemoveItem(array, item)` lives in a
part of the repository outside the given sources.  Per the spec it
performs swap-with-last-element removal: the removed occurrence's slot
receives the final element and the array shrinks by one; when `item` is
not present the array is unchanged. -/
def unorderedRemoveItem (arr : List A) (item : A) : List A :=
  match arr.findIdx? (fun x => x == item) with
  | none => arr
  | some i =>
    match arr.getLast? with
    | none => arr
    | some last => (arr.set i last).dropLast

/-- Model of `multiMapAdd(map, key, value)`: push onto the existing array — the
`if (values)` truthiness test succeeds exactly when `get` did not return
`undefined`, because every array (even an empty one) is truthy — or
store a fresh one-element array via `setAndReturn`; returns the array. -/
def multiMapAdd (m : Entries K (List A)) (k : K) (v : A) :
    List A × Entries K (List A) :=
  match mapGet m k with
  | some values =>
    let grown := values ++ [v]
    (grown, mapSet m k (some grown))
  | none => ([v], mapSet m k (some [v]))

/-- Model of `multiMapRemove(map, key, value)`: when the key holds an array,
remove the value from it in place, then delete the key when the array
has become empty. -/
def multiMapRemove (m : Entries K (List A)) (k : K) (v : A) : Entries K (List A) :=
  match mapGet m k with
  | none => m
  | some values =>
    let remaining := unorderedRemoveItem values v
    if remaining.length = 0 then mapDelete (mapSet m k (some remaining)) k
    else mapSet m k (some remaining)

/-- One multi-map operation. -/
inductive MultiMapOp (K A : Type) where
  | add (k : K) (v : A)
  | remove (k : K) (v : A)

/-- Apply a sequence of multi-map operations to a map. -/
def applyMultiMapOps (ops : List (MultiMapOp K A)) (m : Entries K (List A)) :
    Entries K (List A) :=
  ops.foldl
    (fun acc op =>
      match op with
      | .add k v => (multiMapAdd acc k v).2
      | .remove k v => multiMapRemove acc k v)
    m

/-- The multi-map invariant: keys are duplicate-free and every stored
value is a non-empty array. -/
def MultiMapInv (m : Entries K (List A)) : Prop :=
  WF m ∧ ∀ kv ∈ m, ∃ l, kv.2 = some l ∧ l ≠ []

/-- Model of `mapsAreEqual(left, right, valuesAreEqual?)`.  The reference equality
`left === right` of the first line is modelled by the explicit `sameRef`
flag (reference-equal arguments are in particular structurally equal); a
`none` for `left`/`right` models a null/undefined argument, and an
omitted `valuesAreEqual` (the default identity comparison) is modelled
by `none`. -/
def mapsAreEqual (sameRef : Bool) (left right : Option (Entries K V))
    (valuesAreEqual : Option (Option V → Option V → Bool)) : Bool :=
  if sameRef then true
  else
    match left, right with
    | none, _ => false
    | _, none => false
    | some l, some r =>
      let someInLeftHasNoMatch := someInMap l (fun leftValue leftKey =>
        if !mapHas r leftKey then true
        else
          let rightValue := mapGet r leftKey
          !(match valuesAreEqual with
            | some eq => eq leftValue rightValue
            | none => leftValue == rightValue))
      if someInLeftHasNoMatch then false
      else !(someKeyInMap r (fun rightKey => !mapHas l rightKey))

/-- The spec's map-equality condition, written from the spec's words:
the two maps have the same key set, and for every shared key the values
are equal under the value comparison. -/
def mapsEqualSpec (l r : Entries K V) (eq : Option V → Option V → Bool) : Bool :=
  (l.all fun kv => mapHas r kv.1) && (r.all fun kv => mapHas l kv.1)
    && (l.all fun kv => eq (mapGet l kv.1) (mapGet r kv.1))

/-- The effective value comparison of `mapsAreEqual`: the supplied
`valuesAreEqual`, or the default identity comparison when omitted. -/
def effectiveEq (valuesAreEqual : Option (Option V → Option V → Bool)) :
    Option V → Option V → Bool :=
  match valuesAreEqual with
  | some eq => eq
  | none => fun a b => a == b

/-- The record produced by `createDictionaryModeObject`, viewed as its
own-entry list (its prototype is null): used by `mapLikeOfMap`. -/
def createDictionaryModeObjectEntries (V : Type) : Entries String V :=
  mapDelete (mapSet [] "__" none) "__"

/-- Model of `hasProperty(map, key)`: `Object.prototype.hasOwnProperty.call` — an
own-property test on a record. -/
def hasProperty {V : Type} (obj : Entries String V) (k : String) : Bool :=
  mapHas obj k

/-- Model of `mapLikeOfMap(map)`: a fresh dictionary-mode record receiving
`obj[key] = value` for each map entry in iteration order. -/
def mapLikeOfMap {V : Type} [DecidableEq V] (m : Entries String V) : Entries String V :=
  m.foldl (fun obj kv => mapSet obj kv.1 kv.2) (createDictionaryModeObjectEntries V)

/-- Model of `mapOfMapLike(object)`: a fresh map receiving
`map.set(key, object[key])` for each own enumerable key of the record. -/
def mapOfMapLike {V : Type} [DecidableEq V] (obj : Entries String V) : Entries String V :=
  obj.foldl
    (fun m kv => if hasProperty obj kv.1 then mapSet m kv.1 (mapGet obj kv.1) else m) []

/-- The regular expression `^(0|([1-9]\d*))$` of
`sortInV8ObjectInsertionOrder`: the string `"0"`, or a digit string with
a non-zero leading digit. -/
def looksLikeNatural (s : String) : Bool :=
  match s.data with
  | [] => false
  | c :: cs =>
    (c == '0' && cs.isEmpty)
      || (decide ('1' ≤ c) && decide (c ≤ '9') && cs.all Char.isDigit)

/-- Model of `parseInt(key, 10)` as used by `sortInV8ObjectInsertionOrder`, whose
arguments always match the natural-number pattern: the numeric value of
the leading digit run. -/
def parseIntBase10 (s : String) : Nat :=
  (s.data.takeWhile Char.isDigit).foldl (fun n c => n * 10 + (c.toNat - 48)) 0

/-- Model of `sortInV8ObjectInsertionOrder(values, toKey)`: partition the values
into those whose key matches the natural-number-literal pattern and all
others, sort the first group ascending by numeric key value
(`Array.prototype.sort` with comparator `toInt(a) - toInt(b)`, modelled
as a stable sort), and concatenate the groups. -/
def sortInV8ObjectInsertionOrder {T : Type} (values : List T) (toKey : T → String) :
    List T :=
  let split := values.partition (fun value => looksLikeNatural (toKey value))
  let naturalNumberKeys := split.1
  let allOtherKeys := split.2
  (naturalNumberKeys.insertionSort
      (fun a b => parseIntBase10 (toKey a) ≤ parseIntBase10 (toKey b)))
    ++ allOtherKeys

/-- The strict-equality test `b === undefined` for a boolean `b`: a
boolean value is never `undefined`, so the test is always false.  It
appears verbatim in `equalOwnProperties`
(`!hasOwnProperty.call(right, key) === undefined`), making that guard
dead code. -/
def boolStrictEqUndefined : Bool → Bool := fun _ => false

/-- Model of `equalOwnProperties(left, right, equalityComparer?)`, with `sameRef`
modelling `left === right` and `none` arguments modelling null. -/
def equalOwnProperties {V : Type} [DecidableEq V] (sameRef : Bool)
    (left right : Option (Entries String V))
    (equalityComparer : Option (Option V → Option V → Bool)) : Bool :=
  if sameRef then true
  else
    match left, right with
    | none, _ => false
    | _, none => false
    | some l, some r =>
      (l.all fun kv =>
        !(boolStrictEqUndefined (!hasProperty r kv.1))
          && (match equalityComparer with
              | some eq => eq (mapGet l kv.1) (mapGet r kv.1)
              | none => mapGet l kv.1 == mapGet r kv.1))
      && (r.all fun kv => hasProperty l kv.1)

theorem mapGet_set_self (m : Entries K V) (k : K) (v : Option V) :
    mapGet (mapSet m k v) k = v := by
  induction m with
  | nil => simp [mapSet, mapGet]
  | cons hd tl ih =>
    obtain ⟨k', v'⟩ := hd
    by_cases h : k' = k <;> simp [mapSet, mapGet, h, ih]

theorem mapGet_set_ne (m : Entries K V) (k k' : K) (v : Option V) (h : k ≠ k') :
    mapGet (mapSet m k v) k' = mapGet m k' := by
  induction m with
  | nil => simp [mapSet, mapGet, h]
  | cons hd tl ih =>
    obtain ⟨k₀, v₀⟩ := hd
    by_cases hk : k₀ = k
    · subst hk; simp [mapSet, mapGet, h]
    · simp [mapSet, mapGet, hk, ih]

theorem mapHas_set_self (m : Entries K V) (k : K) (v : Option V) :
    mapHas (mapSet m k v) k = true := by
  induction m with
  | nil => simp [mapSet, mapHas]
  | cons hd tl ih =>
    obtain ⟨k', v'⟩ := hd
    by_cases h : k' = k <;> simp [mapSet, mapHas, h, ih]

theorem mapHas_set_ne (m : Entries K V) (k k' : K) (v : Option V) (h : k ≠ k') :
    mapHas (mapSet m k v) k' = mapHas m k' := by
  induction m with
  | nil => simp [mapSet, mapHas, h]
  | cons hd tl ih =>
    obtain ⟨k₀, v₀⟩ := hd
    by_cases hk : k₀ = k
    · subst hk; simp [mapSet, mapHas, h]
    · simp [mapSet, mapHas, hk, ih]

theorem mapHas_eq_mem (m : Entries K V) (k : K) :
    mapHas m k = true ↔ k ∈ m.map Prod.fst := by
  induction m with
  | nil => simp [mapHas]
  | cons hd tl ih =>
    obtain ⟨k', v'⟩ := hd
    by_cases h : k' = k
    · subst h; simp [mapHas]
    · simp [mapHas, h, ih, Ne.symm h]

theorem mapGet_eq_none_of_not_has (m : Entries K V) (k : K)
    (h : mapHas m k = false) : mapGet m k = none := by
  induction m with
  | nil => rfl
  | cons hd tl ih =>
    obtain ⟨k', v'⟩ := hd
    by_cases hk : k' = k
    · simp [mapHas, hk] at h
    · simp only [mapGet, if_neg hk]
      exact ih (by simpa [mapHas, hk] using h)

theorem mapHas_delete_self (m : Entries K V) (k : K) (h : WF m) :
    mapHas (mapDelete m k) k = false := by
  induction m with
  | nil => simp [mapDelete, mapHas]
  | cons hd tl ih =>
    obtain ⟨k', v'⟩ := hd
    obtain ⟨hnot, htl⟩ := List.nodup_cons.mp h
    by_cases hk : k' = k
    · subst hk
      simp only [mapDelete, if_pos rfl]
      rw [Bool.eq_false_iff]
      intro hmem
      exact hnot ((mapHas_eq_mem tl k').mp hmem)
    · simp [mapDelete, mapHas, hk, ih htl]

theorem mapGet_delete_self (m : Entries K V) (k : K) (h : WF m) :
    mapGet (mapDelete m k) k = none :=
  mapGet_eq_none_of_not_has _ _ (mapHas_delete_self m k h)

theorem mapGet_delete_ne (m : Entries K V) (k k' : K) (h : k ≠ k') :
    mapGet (mapDelete m k) k' = mapGet m k' := by
  induction m with
  | nil => simp [mapDelete]
  | cons hd tl ih =>
    obtain ⟨k₀, v₀⟩ := hd
    by_cases hk : k₀ = k
    · subst hk; simp [mapDelete, mapGet, h]
    · simp [mapDelete, mapGet, hk, ih]

theorem keys_mapSet (m : Entries K V) (k : K) (v : Option V) :
    (mapSet m k v).map Prod.fst =
      if mapHas m k = true then m.map Prod.fst else m.map Prod.fst ++ [k] := by
  induction m with
  | nil => simp [mapSet, mapHas]
  | cons hd tl ih =>
    obtain ⟨k', v'⟩ := hd
    by_cases h : k' = k
    · subst h; simp [mapSet, mapHas]
    · simp only [mapSet, if_neg h, List.map_cons, mapHas, ih]
      by_cases htl : mapHas tl k = true <;> simp [htl]

theorem WF_set (m : Entries K V) (k : K) (v : Option V) (h : WF m) :
    WF (mapSet m k v) := by
  unfold WF at h ⊢
  rw [keys_mapSet]
  by_cases hh : mapHas m k = true
  · simpa [hh] using h
  · rw [if_neg hh, List.nodup_append]
    refine ⟨h, List.nodup_singleton _, ?_⟩
    intro a ha hb
    simp only [List.mem_singleton] at hb
    subst hb
    exact hh ((mapHas_eq_mem m a).mpr ha)

theorem keys_mapDelete_sublist (m : Entries K V) (k : K) :
    ((mapDelete m k).map Prod.fst).Sublist (m.map Prod.fst) := by
  induction m with
  | nil => simp [mapDelete]
  | cons hd tl ih =>
    obtain ⟨k', v'⟩ := hd
    by_cases h : k' = k
    · subst h
      simp only [mapDelete, if_pos rfl, List.map_cons]
      exact List.Sublist.cons _ (List.Sublist.refl _)
    · simp only [mapDelete, if_neg h, List.map_cons]
      exact List.Sublist.cons₂ _ ih

theorem WF_delete (m : Entries K V) (k : K) (h : WF m) :
    WF (mapDelete m k) :=
  List.Nodup.sublist (keys_mapDelete_sublist m k) h

theorem mapGet_eq_of_mem (m : Entries K V) (k : K) (v : Option V)
    (h : WF m) (hm : (k, v) ∈ m) : mapGet m k = v := by
  induction m with
  | nil => cases hm
  | cons hd tl ih =>
    obtain ⟨k', v'⟩ := hd
    obtain ⟨hnot, htl⟩ := List.nodup_cons.mp h
    rcases List.mem_cons.mp hm with heq | hmem
    · injection heq with h1 h2
      subst h1; subst h2
      simp [mapGet]
    · have hk : k' ≠ k := by
        intro hkk
        subst hkk
        exact hnot (List.mem_map.mpr ⟨(k', v), hmem, rfl⟩)
      simp [mapGet, hk, ih htl hmem]

theorem shimMap_get_set_self {W : Type} [DecidableEq W] (s : ShimMap W) (k : String) (v : Option W) :
    (ShimMap.set s k v).get k = v :=
  mapGet_set_self s.data.own k v

theorem shimMap_get_delete_self {W : Type} [DecidableEq W] (s : ShimMap W) (k : String)
    (h : WF s.data.own) : ((ShimMap.delete s k).1).get k = none := by
  unfold ShimMap.delete
  by_cases hh : s.has k
  · simp only [hh, if_pos]
    exact mapGet_delete_self s.data.own k h
  · simp only [hh]
    have hown : mapHas s.data.own k = false := by
      unfold ShimMap.has objIn at hh
      simp only [Bool.or_eq_true, not_or, Bool.not_eq_true] at hh
      exact hh.1
    simpa [ShimMap.get, objGet, Bool.false_eq_true, if_false] using
      mapGet_eq_none_of_not_has s.data.own k hown

/-- C1: after `set(map, k, v)`, `get(map, k)` returns `v`, and after
`delete(map, k)`, `get(map, k)` returns the absent sentinel `undefined`
(`none`) — on any well-formed map state, hence regardless of the
preceding sequence of set/get/delete operations — both for the
native-map model and for the ES5 `ShimMap` behind `createMap`; and both
operations preserve well-formedness. -/
theorem c1_get_after_set_and_delete
    (m : Entries K V) (k : K) (v : Option V) (hm : WF m)
    {W : Type} [DecidableEq W] (s : ShimMap W) (ks : String) (vs : Option W) (hs : WF s.data.own) :
    mapGet (mapSet m k v) k = v
      ∧ mapGet (mapDelete m k) k = none
      ∧ WF (mapSet m k v)
      ∧ WF (mapDelete m k)
      ∧ (ShimMap.set s ks vs).get ks = vs
      ∧ ((ShimMap.delete s ks).1).get ks = none
      ∧ WF ((ShimMap.set s ks vs).data.own) :=
  ⟨mapGet_set_self m k v, mapGet_delete_self m k hm, WF_set m k v hm,
    WF_delete m k hm, shimMap_get_set_self s ks vs, shimMap_get_delete_self s ks hs,
    WF_set s.data.own ks vs hs⟩

/-- Witness for C1 at concrete inputs. -/
theorem c1_get_after_set_and_delete_witness :
    mapGet (mapSet [(("a" : String), (some 1 : Option Nat))] "b" (some 2)) "b" = some 2
      ∧ mapGet (mapDelete [(("a" : String), (some 1 : Option Nat))] "b") "b" = none
      ∧ WF (mapSet [(("a" : String), (some 1 : Option Nat))] "b" (some 2))
      ∧ WF (mapDelete [(("a" : String), (some 1 : Option Nat))] "b")
      ∧ (ShimMap.set ⟨⟨[("x", some 5)], []⟩⟩ "y" (some 7)).get "y" = some 7
      ∧ ((ShimMap.delete (⟨⟨[("x", (some 5 : Option Nat))], []⟩⟩ : ShimMap Nat) "x").1).get "x" = none
      ∧ WF ((ShimMap.set (⟨⟨[("x", (some 5 : Option Nat))], []⟩⟩ : ShimMap Nat) "y" (some 7)).data.own) := by
  have h := c1_get_after_set_and_delete
    [(("a" : String), (some 1 : Option Nat))] "b" (some 2) (by decide)
    (⟨⟨[("x", (some 5 : Option Nat))], []⟩⟩ : ShimMap Nat) "x" (some 7) (by decide)
  have h2 := c1_get_after_set_and_delete
    [(("a" : String), (some 1 : Option Nat))] "b" (some 2) (by decide)
    (⟨⟨[("x", (some 5 : Option Nat))], []⟩⟩ : ShimMap Nat) "y" (some 7) (by decide)
  exact ⟨h.1, h.2.1, h.2.2.1, h.2.2.2.1, h2.2.2.2.2.1, h.2.2.2.2.2.1, h2.2.2.2.2.2.2⟩

theorem findInMapShim_keep (f : Option V → K → Option U) (r : U) (m : Entries K V) :
    m.foldl
      (fun result kv =>
        match result with
        | some r' => some r'
        | none => f kv.2 kv.1)
      (some r) = some r := by
  induction m with
  | nil => rfl
  | cons hd tl ih => simpa using ih

theorem findInMapShim_eq (m : Entries K V) (f : Option V → K → Option U) :
    findInMapShim m f = findInMap m f := by
  induction m with
  | nil => rfl
  | cons hd tl ih =>
    obtain ⟨k, v⟩ := hd
    unfold findInMapShim findInMap
    rw [List.foldl_cons]
    cases hf : f v k with
    | some r => simpa [hf] using findInMapShim_keep f r tl
    | none => simpa [hf] using ih

theorem findInMapShimCalls_keep (f : Option V → K → Option U) (r : U)
    (cs : Entries K V) (m : Entries K V) :
    m.foldl
      (fun acc kv =>
        match acc.1 with
        | some r' => (some r', acc.2)
        | none => (f kv.2 kv.1, acc.2 ++ [kv]))
      (some r, cs) = (some r, cs) := by
  induction m with
  | nil => rfl
  | cons hd tl ih => simpa using ih

theorem findInMapShimCalls_aux (f : Option V → K → Option U) (m : Entries K V) :
    ∀ cs : Entries K V,
      m.foldl
        (fun acc kv =>
          match acc.1 with
          | some r' => (some r', acc.2)
          | none => (f kv.2 kv.1, acc.2 ++ [kv]))
        (none, cs)
      = ((findInMapCalls m f).1, cs ++ (findInMapCalls m f).2) := by
  induction m with
  | nil => intro cs; simp [findInMapCalls]
  | cons hd tl ih =>
    intro cs
    obtain ⟨k, v⟩ := hd
    rw [List.foldl_cons]
    cases hf : f v k with
    | some r =>
      simpa [findInMapCalls, hf] using findInMapShimCalls_keep f r (cs ++ [(k, v)]) tl
    | none =>
      simp only [hf]
      rw [ih (cs ++ [(k, v)])]
      simp [findInMapCalls, hf]

theorem findInMapCalls_fst (m : Entries K V) (f : Option V → K → Option U) :
    (findInMapCalls m f).1 = findInMap m f := by
  induction m with
  | nil => rfl
  | cons hd tl ih =>
    obtain ⟨k, v⟩ := hd
    unfold findInMapCalls findInMap
    cases hf : f v k <;> simp [hf, ih]

/-- C2: `findInMap` returns the first non-`undefined` result of
`f(value, key)` over the entries in iteration order (`undefined` when
the map is empty or `f` yields `undefined` everywhere), and `f` is
evaluated exactly at the entries up to and including the first hit —
never at a later entry; the shim branch computes the same result with
the same `f` evaluations. -/
theorem c2_findInMap_first_hit (m : Entries K V) (f : Option V → K → Option U) :
    findInMap m f = m.findSome? (fun kv => f kv.2 kv.1)
      ∧ (findInMapCalls m f).1 = findInMap m f
      ∧ (findInMapCalls m f).2 =
          m.takeWhile (fun kv => (f kv.2 kv.1).isNone)
            ++ (m.dropWhile (fun kv => (f kv.2 kv.1).isNone)).take 1
      ∧ findInMapShim m f = findInMap m f
      ∧ findInMapShimCalls m f = findInMapCalls m f := by
  refine ⟨?_, findInMapCalls_fst m f, ?_, findInMapShim_eq m f, ?_⟩
  · induction m with
    | nil => rfl
    | cons hd tl ih =>
      obtain ⟨k, v⟩ := hd
      unfold findInMap
      cases hf : f v k <;> simp [List.findSome?_cons, hf, ih]
  · induction m with
    | nil => rfl
    | cons hd tl ih =>
      obtain ⟨k, v⟩ := hd
      unfold findInMapCalls
      cases hf : f v k with
      | some r => simp [hf, List.takeWhile_cons, List.dropWhile_cons]
      | none => simp [hf, List.takeWhile_cons, List.dropWhile_cons, ih]
  · unfold findInMapShimCalls
    rw [findInMapShimCalls_aux f m []]
    rw [findInMapCalls_fst m f, ← findInMapCalls_fst m f]
    simp

/-- C8: when `get(map, k)` is a non-`undefined` value, `tryDelete`
returns it and removes the key; otherwise it returns `undefined` and
leaves the map completely unchanged — in particular a key explicitly
holding `undefined` remains present. -/
theorem c8_tryDelete_spec (m : Entries K V) (k : K) (hm : WF m) :
    (∀ v, mapGet m k = some v →
        tryDelete m k = (some v, mapDelete m k)
          ∧ mapHas (mapDelete m k) k = false)
      ∧ (mapGet m k = none → tryDelete m k = (none, m))
      ∧ (mapGet m k = none → mapHas m k = true → mapHas (tryDelete m k).2 k = true) := by
  refine ⟨?_, ?_, ?_⟩
  · intro v hv
    exact ⟨by simp [tryDelete, hv], mapHas_delete_self m k hm⟩
  · intro hn
    simp [tryDelete, hn]
  · intro hn hh
    simp [tryDelete, hn, hh]

/-- Witness for C8 at concrete inputs: a present value is taken and
removed, and a key explicitly holding `undefined` survives the call. -/
theorem c8_tryDelete_spec_witness :
    tryDelete [(("a" : String), (some 1 : Option Nat))] "a" = (some 1, [])
      ∧ mapHas (mapDelete [(("a" : String), (some 1 : Option Nat))] "a") "a" = false
      ∧ tryDelete [(("u" : String), (none : Option Nat))] "u" = (none, [("u", none)])
      ∧ mapHas (tryDelete [(("u" : String), (none : Option Nat))] "u").2 "u" = true := by
  have h1 := c8_tryDelete_spec [(("a" : String), (some 1 : Option Nat))] "a" (by decide)
  have h2 := c8_tryDelete_spec [(("u" : String), (none : Option Nat))] "u" (by decide)
  refine ⟨?_, (h1.1 1 rfl).2, h2.2.1 rfl, h2.2.2 rfl rfl⟩
  have := (h1.1 1 rfl).1
  simpa [mapDelete] using this

/-- C9: a freshly created dictionary-mode map or set reports `has(k) =
false` for every key, including the inherited method/property names of a
generic object, because `createDictionaryModeObject` produces a record
with no prototype; the `in`-operator membership test consults own keys
and prototype keys only, and a record that did inherit from
`Object.prototype` would report `"toString"` as present. -/
theorem c9_fresh_dictionary_has_nothing (V : Type) (k : String) :
    ShimMap.has (ShimMap.create V) k = false
      ∧ ShimStringSet.has ShimStringSet.create k = false
      ∧ (createDictionaryModeObject V).protoKeys = []
      ∧ (∀ o : JsObject V, objIn o k = (mapHas o.own k || o.protoKeys.contains k))
      ∧ objIn { own := ([] : Entries String V), protoKeys := objectPrototypeKeys }
          "toString" = true := by
  refine ⟨rfl, rfl, rfl, fun o => rfl, ?_⟩
  simp [objIn, mapHas, objectPrototypeKeys]

/-- C10: with the default identity comparison, `equalOwnProperties` is
asymmetric: a record holding one key explicitly set to `undefined`
versus the empty record yields true, while the reverse order yields
false. -/
theorem c10_equalOwnProperties_asymmetric :
    equalOwnProperties false (some [(("a" : String), (none : Option Nat))])
        (some []) none = true
      ∧ equalOwnProperties false (some ([] : Entries String Nat))
          (some [("a", none)]) none = false := by
  constructor <;> rfl

/-- C3: `getOrUpdate` returns the stored value without calling
`getValue` when `get` is non-`undefined`, otherwise calls it exactly
once, stores and returns the result; across two successive calls on an
initially absent key, `getValue` runs once in total when its result is
non-`undefined` but again when the stored value is the literal
`undefined`; `getOrUpdateAndAllowUndefined` tests presence with `has`
and thus never recomputes a stored `undefined`. -/
theorem c3_getOrUpdate_spec (m : Entries K V) (k : K) (f : K → Option V) :
    (∀ v, mapGet m k = some v → getOrUpdate m k f = (some v, m, 0))
      ∧ (mapGet m k = none → getOrUpdate m k f = (f k, mapSet m k (f k), 1))
      ∧ (mapGet m k = none → ∀ v, f k = some v →
          getOrUpdate (getOrUpdate m k f).2.1 k f = (some v, mapSet m k (f k), 0))
      ∧ (mapGet m k = none → f k = none →
          (getOrUpdate (getOrUpdate m k f).2.1 k f).2.2 = 1)
      ∧ (mapHas m k = true → getOrUpdateAndAllowUndefined m k f = (mapGet m k, m, 0))
      ∧ (mapHas m k = false →
          getOrUpdateAndAllowUndefined m k f = (f k, mapSet m k (f k), 1)
            ∧ (getOrUpdateAndAllowUndefined (mapSet m k (f k)) k f).2.2 = 0) := by
  refine ⟨?_, ?_, ?_, ?_, ?_, ?_⟩
  · intro v hv
    simp [getOrUpdate, hv]
  · intro hn
    simp [getOrUpdate, hn, setAndReturn]
  · intro hn v hv
    have h1 : (getOrUpdate m k f).2.1 = mapSet m k (f k) := by
      simp [getOrUpdate, hn, setAndReturn]
    rw [h1, hv]
    have h2 : mapGet (mapSet m k (some v)) k = some v := mapGet_set_self m k _
    simp [getOrUpdate, h2]
  · intro hn hv
    have h1 : (getOrUpdate m k f).2.1 = mapSet m k (f k) := by
      simp [getOrUpdate, hn, setAndReturn]
    rw [h1]
    have h2 : mapGet (mapSet m k (f k)) k = none := by
      rw [mapGet_set_self, hv]
    simp [getOrUpdate, h2, setAndReturn]
  · intro hh
    simp [getOrUpdateAndAllowUndefined, hh]
  · intro hh
    refine ⟨by simp [getOrUpdateAndAllowUndefined, hh, setAndReturn], ?_⟩
    simp [getOrUpdateAndAllowUndefined, mapHas_set_self]

/-- Witness for C3 at concrete inputs, exercising every branch: a
present value, a computed value, a cached recomputation, the
`undefined`-recompute asymmetry, and the `has`-based variant. -/
theorem c3_getOrUpdate_spec_witness :
    getOrUpdate [(("a" : String), (some 1 : Option Nat))] "a" (fun _ => some 9)
        = (some 1, [("a", some 1)], 0)
      ∧ getOrUpdate ([] : Entries String Nat) "a" (fun _ => some 9)
          = (some 9, [("a", some 9)], 1)
      ∧ getOrUpdate (getOrUpdate ([] : Entries String Nat) "a" (fun _ => some 9)).2.1
          "a" (fun _ => some 9) = (some 9, [("a", some 9)], 0)
      ∧ (getOrUpdate (getOrUpdate ([] : Entries String Nat) "a" (fun _ => none)).2.1
          "a" (fun _ => none)).2.2 = 1
      ∧ getOrUpdateAndAllowUndefined [(("a" : String), (none : Option Nat))] "a"
          (fun _ => some 9) = (none, [("a", none)], 0)
      ∧ getOrUpdateAndAllowUndefined ([] : Entries String Nat) "a" (fun _ => none)
          = (none, [("a", none)], 1)
      ∧ (getOrUpdateAndAllowUndefined (mapSet ([] : Entries String Nat) "a" none) "a"
          (fun _ => none)).2.2 = 0 := by
  have h1 := c3_getOrUpdate_spec [(("a" : String), (some 1 : Option Nat))] "a"
    (fun _ => some 9)
  have h2 := c3_getOrUpdate_spec ([] : Entries String Nat) "a" (fun _ => some 9)
  have h3 := c3_getOrUpdate_spec ([] : Entries String Nat) "a" (fun _ => none)
  have h4 := c3_getOrUpdate_spec [(("a" : String), (none : Option Nat))] "a"
    (fun _ => some 9)
  exact ⟨h1.1 1 rfl, h2.2.1 rfl, h2.2.2.1 rfl 9 rfl, h3.2.2.2.1 rfl rfl,
    h4.2.2.2.2.1 rfl, (h3.2.2.2.2.2 rfl).1, (h3.2.2.2.2.2 rfl).2⟩

theorem mem_mapSet (m : Entries K V) (k : K) (v : Option V) (kv : K × Option V)
    (h : kv ∈ mapSet m k v) : kv = (k, v) ∨ kv ∈ m := by
  induction m with
  | nil => simpa [mapSet] using h
  | cons hd tl ih =>
    obtain ⟨k', v'⟩ := hd
    by_cases hk : k' = k
    · subst hk
      rcases List.mem_cons.mp (by simpa [mapSet] using h) with h1 | h1
      · exact Or.inl (by simpa using h1)
      · exact Or.inr (List.mem_cons.mpr (Or.inr h1))
    · rcases List.mem_cons.mp (by simpa [mapSet, hk] using h) with h1 | h1
      · exact Or.inr (List.mem_cons.mpr (Or.inl h1))
      · rcases ih h1 with h2 | h2
        · exact Or.inl h2
        · exact Or.inr (List.mem_cons.mpr (Or.inr h2))

theorem mapDelete_sublist (m : Entries K V) (k : K) :
    (mapDelete m k).Sublist m := by
  induction m with
  | nil => simp [mapDelete]
  | cons hd tl ih =>
    obtain ⟨k', v'⟩ := hd
    by_cases hk : k' = k
    · simp only [mapDelete, hk, if_pos rfl]
      exact List.Sublist.cons _ (List.Sublist.refl _)
    · simp only [mapDelete, if_neg hk]
      exact List.Sublist.cons₂ _ ih

theorem mem_mapDelete (m : Entries K V) (k : K) (kv : K × Option V) (hm : WF m)
    (h : kv ∈ mapDelete m k) : kv ∈ m ∧ kv.1 ≠ k := by
  refine ⟨(mapDelete_sublist m k).mem h, ?_⟩
  intro hk
  subst hk
  have hhas : mapHas (mapDelete m kv.1) kv.1 = true :=
    (mapHas_eq_mem _ _).mpr (List.mem_map.mpr ⟨kv, h, rfl⟩)
  rw [mapHas_delete_self m kv.1 hm] at hhas
  cases hhas

theorem multiMapAdd_inv (m : Entries K (List A)) (k : K) (v : A)
    (h : MultiMapInv m) : MultiMapInv (multiMapAdd m k v).2 := by
  obtain ⟨hwf, hval⟩ := h
  cases hg : mapGet m k with
  | some values =>
    refine ⟨by simpa [multiMapAdd, hg] using WF_set m k _ hwf, ?_⟩
    intro kv hkv
    simp only [multiMapAdd, hg] at hkv
    rcases mem_mapSet _ _ _ _ hkv with h1 | h1
    · subst h1
      exact ⟨values ++ [v], rfl, by simp⟩
    · exact hval kv h1
  | none =>
    refine ⟨by simpa [multiMapAdd, hg] using WF_set m k _ hwf, ?_⟩
    intro kv hkv
    simp only [multiMapAdd, hg] at hkv
    rcases mem_mapSet _ _ _ _ hkv with h1 | h1
    · subst h1
      exact ⟨[v], rfl, by simp⟩
    · exact hval kv h1

theorem multiMapRemove_inv (m : Entries K (List A)) (k : K) (v : A)
    (h : MultiMapInv m) : MultiMapInv (multiMapRemove m k v) := by
  obtain ⟨hwf, hval⟩ := h
  cases hg : mapGet m k with
  | none => simpa [multiMapRemove, hg] using ⟨hwf, hval⟩
  | some values =>
    by_cases hlen : (unorderedRemoveItem values v).length = 0
    · refine ⟨?_, ?_⟩
      · simpa [multiMapRemove, hg, hlen] using
          WF_delete _ k (WF_set m k _ hwf)
      · intro kv hkv
        simp only [multiMapRemove, hg, hlen, if_pos] at hkv
        have h1 := mem_mapDelete _ k kv (WF_set m k _ hwf) hkv
        rcases mem_mapSet _ _ _ _ h1.1 with h2 | h2
        · exact absurd (by rw [h2]) h1.2
        · exact hval kv h2
    · refine ⟨?_, ?_⟩
      · simpa [multiMapRemove, hg, hlen] using WF_set m k _ hwf
      · intro kv hkv
        simp only [multiMapRemove, hg, hlen, if_neg] at hkv
        rcases mem_mapSet _ _ _ _ hkv with h1 | h1
        · subst h1
          exact ⟨unorderedRemoveItem values v, rfl,
            fun he => hlen (by rw [he]; rfl)⟩
        · exact hval kv h1

theorem applyMultiMapOps_inv (ops : List (MultiMapOp K A)) (m : Entries K (List A))
    (h : MultiMapInv m) : MultiMapInv (applyMultiMapOps ops m) := by
  induction ops generalizing m with
  | nil => simpa [applyMultiMapOps] using h
  | cons op rest ih =>
    cases op with
    | add k v =>
      simpa [applyMultiMapOps] using ih _ (multiMapAdd_inv m k v h)
    | remove k v =>
      simpa [applyMultiMapOps] using ih _ (multiMapRemove_inv m k v h)

theorem multiMapInv_get (m : Entries K (List A)) (h : MultiMapInv m) (k : K) :
    mapGet m k ≠ some []
      ∧ (mapHas m k = true → ∃ l, mapGet m k = some l ∧ l ≠ []) := by
  obtain ⟨hwf, hval⟩ := h
  constructor
  · intro hcon
    have hmem : (k, some ([] : List A)) ∈ m := by
      clear hval hwf
      induction m with
      | nil => simp [mapGet] at hcon
      | cons hd tl ih =>
        obtain ⟨k', v'⟩ := hd
        by_cases hk : k' = k
        · subst hk
          simp [mapGet] at hcon
          exact List.mem_cons.mpr (Or.inl (by rw [hcon]))
        · exact List.mem_cons.mpr (Or.inr (ih (by simpa [mapGet, hk] using hcon)))
    obtain ⟨l, hl, hne⟩ := hval _ hmem
    simp only at hl
    exact hne (by injection hl with h'; exact h'.symm)
  · intro hh
    obtain ⟨kk, hmem⟩ := List.mem_map.mp ((mapHas_eq_mem m k).mp hh)
    obtain ⟨l, hl, hne⟩ := hval _ hmem.1
    refine ⟨l, ?_, hne⟩
    have := mapGet_eq_of_mem m kk.1 kk.2 hwf hmem.1
    rw [hmem.2] at this
    rw [this, hl]

theorem unorderedRemoveItem_singleton (v : A) : unorderedRemoveItem [v] v = [] := by
  simp [unorderedRemoveItem, List.findIdx?]

/-- C4: a multi-map built from the empty map by any sequence of
`multiMapAdd` and `multiMapRemove` operations never maps a key to the
empty array — every present key holds a non-empty array — and adding a
single value under an absent key and then removing it leaves the key
absent. -/
theorem c4_multimap_prunes_empty (ops : List (MultiMapOp K A)) (k : K)
    (m : Entries K (List A)) (k' : K) (v : A)
    (hm : WF m) (habs : mapGet m k' = none) :
    mapGet (applyMultiMapOps ops []) k ≠ some []
      ∧ (mapHas (applyMultiMapOps ops []) k = true →
          ∃ l, mapGet (applyMultiMapOps ops []) k = some l ∧ l ≠ [])
      ∧ mapHas (multiMapRemove (multiMapAdd m k' v).2 k' v) k' = false := by
  have hinv : MultiMapInv (applyMultiMapOps ops ([] : Entries K (List A))) :=
    applyMultiMapOps_inv ops [] ⟨List.nodup_nil, by intro kv hkv; cases hkv⟩
  obtain ⟨h1, h2⟩ := multiMapInv_get _ hinv k
  refine ⟨h1, h2, ?_⟩
  have hadd : (multiMapAdd m k' v).2 = mapSet m k' (some [v]) := by
    simp [multiMapAdd, habs]
  rw [hadd]
  have hget : mapGet (mapSet m k' (some [v])) k' = some [v] := mapGet_set_self m k' _
  simp only [multiMapRemove, hget, unorderedRemoveItem_singleton, List.length_nil,
    if_pos rfl]
  exact mapHas_delete_self _ k' (WF_set _ k' _ (WF_set m k' _ hm))

/-- Witness for C4 at concrete inputs: the scenario add `1`, add `2`,
remove `1`, remove `2` under one key, and the add-then-remove pruning on
a concrete map where the key is absent. -/
theorem c4_multimap_prunes_empty_witness :
    mapGet (applyMultiMapOps
        [MultiMapOp.add "k" 1, MultiMapOp.add "k" 2,
         MultiMapOp.remove "k" 1, MultiMapOp.remove "k" 2]
        ([] : Entries String (List Nat))) "k" ≠ some []
      ∧ mapHas (multiMapRemove
          (multiMapAdd [(("x" : String), some [5])] "k" (1 : Nat)).2 "k" 1) "k"
          = false := by
  have h := c4_multimap_prunes_empty
    [MultiMapOp.add "k" 1, MultiMapOp.add "k" 2,
     MultiMapOp.remove "k" 1, MultiMapOp.remove "k" 2]
    "k" [(("x" : String), some [5])] "k" (1 : Nat) (by decide) (by decide)
  exact ⟨h.1, h.2.2⟩

theorem someInIterator_eq_any {T : Type} (l : List T) (p : T → Bool) :
    someInIterator l p = l.any p := by
  induction l with
  | nil => rfl
  | cons x xs ih =>
    by_cases h : p x <;> simp [someInIterator, h, ih]

theorem effectiveEq_match (veq : Option (Option V → Option V → Bool)) (a b : Option V) :
    (match veq with
      | some eq => eq a b
      | none => a == b) = effectiveEq veq a b := by
  cases veq <;> rfl

theorem mapsAreEqual_true_iff (l r : Entries K V)
    (veq : Option (Option V → Option V → Bool)) :
    mapsAreEqual false (some l) (some r) veq = true
      ↔ (∀ kv ∈ l, mapHas r kv.1 = true
            ∧ effectiveEq veq kv.2 (mapGet r kv.1) = true)
        ∧ (∀ kv ∈ r, mapHas l kv.1 = true) := by
  have hdef : mapsAreEqual false (some l) (some r) veq =
      (if someInIterator l (fun kv => if !mapHas r kv.1 then true
          else !(match veq with
                 | some eq => eq kv.2 (mapGet r kv.1)
                 | none => kv.2 == mapGet r kv.1)) then false
       else !(someInIterator (r.map Prod.fst) (fun rightKey => !mapHas l rightKey))) :=
    rfl
  rw [hdef]
  simp only [someInIterator_eq_any, effectiveEq_match]
  cases hA : (l.any fun kv => if !mapHas r kv.1 then true
      else !(effectiveEq veq kv.2 (mapGet r kv.1))) with
  | true =>
    simp only [eq_self_iff_true, if_true, Bool.false_eq_true, false_iff, not_and]
    intro h1 _
    obtain ⟨kv, hkv, hbad⟩ := List.any_eq_true.mp hA
    obtain ⟨hh, he⟩ := h1 kv hkv
    rw [hh] at hbad
    simp only [Bool.not_true, Bool.false_eq_true, if_false, Bool.not_eq_true'] at hbad
    rw [he] at hbad
    cases hbad
  | false =>
    have hAiff : ∀ kv ∈ l, mapHas r kv.1 = true
        ∧ effectiveEq veq kv.2 (mapGet r kv.1) = true := by
      intro kv hkv
      have := List.any_eq_false.mp hA kv hkv
      by_cases hh : mapHas r kv.1
      · refine ⟨hh, ?_⟩
        rw [hh] at this
        simpa using this
      · rw [Bool.not_eq_true] at hh
        rw [hh] at this
        simp at this
    simp only [Bool.false_eq_true, if_false, Bool.not_eq_true']
    constructor
    · intro hB
      refine ⟨hAiff, ?_⟩
      intro kv hkv
      have := List.any_eq_false.mp hB kv.1 (List.mem_map.mpr ⟨kv, hkv, rfl⟩)
      simpa using this
    · rintro ⟨_, h2⟩
      rw [List.any_eq_false]
      intro k hk
      obtain ⟨kv, hkv, rfl⟩ := List.mem_map.mp hk
      simpa using h2 kv hkv

theorem mapsEqualSpec_true_iff (l r : Entries K V) (hl : WF l)
    (eq : Option V → Option V → Bool) :
    mapsEqualSpec l r eq = true
      ↔ (∀ kv ∈ l, mapHas r kv.1 = true ∧ eq kv.2 (mapGet r kv.1) = true)
        ∧ (∀ kv ∈ r, mapHas l kv.1 = true) := by
  unfold mapsEqualSpec
  simp only [Bool.and_eq_true, List.all_eq_true]
  constructor
  · rintro ⟨⟨h1, h2⟩, h3⟩
    refine ⟨fun kv hkv => ⟨h1 kv hkv, ?_⟩, h2⟩
    have := h3 kv hkv
    rwa [mapGet_eq_of_mem l kv.1 kv.2 hl hkv] at this
  · rintro ⟨h1, h2⟩
    refine ⟨⟨fun kv hkv => (h1 kv hkv).1, h2⟩, fun kv hkv => ?_⟩
    rw [mapGet_eq_of_mem l kv.1 kv.2 hl hkv]
    exact (h1 kv hkv).2

theorem mapsAreEqual_eq_spec (l r : Entries K V) (hl : WF l)
    (veq : Option (Option V → Option V → Bool)) :
    mapsAreEqual false (some l) (some r) veq = true
      ↔ mapsEqualSpec l r (effectiveEq veq) = true :=
  (mapsAreEqual_true_iff l r veq).trans (mapsEqualSpec_true_iff l r hl _).symm

/-- C5 counterexample: reference-equal arguments short-circuit to true
even under a value comparison that rejects every pair, so the claimed
"true if and only if same key set and values equal under `valueEq`"
fails as stated at this input. -/
theorem c5_counterexample :
    mapsAreEqual true (some [(("a" : String), (some 0 : Option Nat))])
        (some [("a", some 0)]) (some fun _ _ => false) = true
      ∧ mapsEqualSpec [(("a" : String), (some 0 : Option Nat))] [("a", some 0)]
          (fun _ _ => false) = false := by
  exact ⟨rfl, rfl⟩

/-- C5 (amended): for arguments that are not reference-equal and both
non-null, with the left map well-formed, `mapsAreEqual` returns true iff
the maps have the same key set and every shared key's values are equal
under `valueEq` (identity comparison when omitted); reference-equal
arguments short-circuit to true regardless of `valueEq`; and exactly one
null argument yields false. -/
theorem c5_mapsAreEqual_spec (l r : Entries K V) (hl : WF l)
    (veq : Option (Option V → Option V → Bool)) :
    (mapsAreEqual false (some l) (some r) veq = true
        ↔ mapsEqualSpec l r (effectiveEq veq) = true)
      ∧ mapsAreEqual true (some l) (some r) veq = true
      ∧ mapsAreEqual false none (some r) veq = false
      ∧ mapsAreEqual false (some l) none veq = false :=
  ⟨mapsAreEqual_eq_spec l r hl veq, rfl, rfl, rfl⟩

/-- Witness for C5 (amended) at concrete inputs: equal singleton maps
compare true under the default comparison, and a single null argument
compares false. -/
theorem c5_mapsAreEqual_spec_witness :
    mapsAreEqual false (some [(("a" : String), (some 1 : Option Nat))])
        (some [("a", some 1)]) none = true
      ∧ mapsAreEqual false none
          (some [(("a" : String), (some 1 : Option Nat))]) none = false := by
  have h := c5_mapsAreEqual_spec [(("a" : String), (some 1 : Option Nat))]
    [("a", some 1)] (by decide) none
  exact ⟨h.1.mpr (by decide), h.2.2.1⟩

theorem mapSet_append_of_not_has (m : Entries K V) (k : K) (v : Option V)
    (h : mapHas m k = false) : mapSet m k v = m ++ [(k, v)] := by
  induction m with
  | nil => rfl
  | cons hd tl ih =>
    obtain ⟨k', v'⟩ := hd
    by_cases hk : k' = k
    · simp [mapHas, hk] at h
    · simp only [mapSet, if_neg hk, List.cons_append]
      rw [ih (by simpa [mapHas, hk] using h)]

theorem mapHas_append (a b : Entries K V) (k : K) :
    mapHas (a ++ b) k = (mapHas a k || mapHas b k) := by
  induction a with
  | nil => simp [mapHas]
  | cons hd tl ih =>
    obtain ⟨k', v'⟩ := hd
    by_cases hk : k' = k <;> simp [mapHas, hk, ih]

theorem foldl_mapSet_of_disjoint (m : Entries String V) :
    ∀ acc : Entries String V, WF m →
      (∀ kv ∈ m, mapHas acc kv.1 = false) →
      m.foldl (fun obj kv => mapSet obj kv.1 kv.2) acc = acc ++ m := by
  induction m with
  | nil =>
    intro acc _ _
    simp
  | cons hd tl ih =>
    intro acc hwf hdisj
    obtain ⟨k, v⟩ := hd
    obtain ⟨hnot, htl⟩ := List.nodup_cons.mp hwf
    rw [List.foldl_cons, mapSet_append_of_not_has acc k v (hdisj (k, v) (by simp))]
    rw [ih (acc ++ [(k, v)]) htl ?_]
    · simp
    · intro kv hkv
      have hkk : k ≠ kv.1 := by
        intro he
        exact hnot (he ▸ List.mem_map.mpr ⟨kv, hkv, rfl⟩)
      rw [mapHas_append]
      simp [mapHas, hkk, hdisj kv (List.mem_cons.mpr (Or.inr hkv))]

theorem mapLikeOfMap_eq (m : Entries String V) (hm : WF m) : mapLikeOfMap m = m := by
  unfold mapLikeOfMap
  have h0 : createDictionaryModeObjectEntries V = [] := rfl
  rw [h0, foldl_mapSet_of_disjoint m [] hm (fun kv _ => rfl)]
  simp

theorem mapOfMapLike_eq (m : Entries String V) (hm : WF m) : mapOfMapLike m = m := by
  unfold mapOfMapLike
  rw [List.foldl_ext _ (fun acc (kv : String × Option V) => mapSet acc kv.1 kv.2)]
  · exact foldl_mapSet_of_disjoint m [] hm (fun kv _ => rfl) |>.trans (by simp)
  · intro acc kv hkv
    have hhas : hasProperty m kv.1 = true :=
      (mapHas_eq_mem m kv.1).mpr (List.mem_map.mpr ⟨kv, hkv, rfl⟩)
    rw [hhas, if_pos rfl, mapGet_eq_of_mem m kv.1 kv.2 hm hkv]

theorem mapsEqualSpec_refl (m : Entries K V) (hm : WF m) :
    mapsEqualSpec m m (effectiveEq none) = true := by
  rw [mapsEqualSpec_true_iff m m hm]
  refine ⟨fun kv hkv => ⟨?_, ?_⟩, fun kv hkv => ?_⟩
  · exact (mapHas_eq_mem m kv.1).mpr (List.mem_map.mpr ⟨kv, hkv, rfl⟩)
  · rw [mapGet_eq_of_mem m kv.1 kv.2 hm hkv]
    simp [effectiveEq]
  · exact (mapHas_eq_mem m kv.1).mpr (List.mem_map.mpr ⟨kv, hkv, rfl⟩)

/-- C6: for a well-formed map with string keys, the round trip
`mapOfMapLike(mapLikeOfMap(m))` reproduces the map exactly, hence in
particular a map equal to `m` according to `mapsAreEqual`. -/
theorem c6_mapLike_roundtrip (m : Entries String V) (hm : WF m) :
    mapOfMapLike (mapLikeOfMap m) = m
      ∧ mapsAreEqual false (some (mapOfMapLike (mapLikeOfMap m))) (some m) none
          = true := by
  have h1 : mapOfMapLike (mapLikeOfMap m) = m := by
    rw [mapLikeOfMap_eq m hm, mapOfMapLike_eq m hm]
  refine ⟨h1, ?_⟩
  rw [h1]
  exact (mapsAreEqual_eq_spec m m hm none).mpr (mapsEqualSpec_refl m hm)

/-- Witness for C6 at a concrete map, including a key explicitly set to
`undefined`. -/
theorem c6_mapLike_roundtrip_witness :
    mapOfMapLike (mapLikeOfMap [(("a" : String), (some 1 : Option Nat)), ("b", none)])
        = [("a", some 1), ("b", none)]
      ∧ mapsAreEqual false
          (some (mapOfMapLike
            (mapLikeOfMap [(("a" : String), (some 1 : Option Nat)), ("b", none)])))
          (some [("a", some 1), ("b", none)]) none = true :=
  c6_mapLike_roundtrip [("a", some 1), ("b", none)] (by decide)

/-- C7: `sortInV8ObjectInsertionOrder` returns the values whose keys
match the natural-number-literal pattern, sorted ascending by numeric
key value, followed by all other values in their original relative
order; in particular on `["b", "2", "a", "0", "10"]` with the identity
key function it yields `["0", "2", "10", "b", "a"]`. -/
theorem c7_sortInV8_spec {T : Type} (values : List T) (toKey : T → String) :
    ((sortInV8ObjectInsertionOrder values toKey).take
        (values.filter (fun v => looksLikeNatural (toKey v))).length).Perm
        (values.filter (fun v => looksLikeNatural (toKey v)))
      ∧ List.Sorted (fun a b => parseIntBase10 (toKey a) ≤ parseIntBase10 (toKey b))
          ((sortInV8ObjectInsertionOrder values toKey).take
            (values.filter (fun v => looksLikeNatural (toKey v))).length)
      ∧ (sortInV8ObjectInsertionOrder values toKey).drop
          (values.filter (fun v => looksLikeNatural (toKey v))).length
          = values.filter (fun v => !looksLikeNatural (toKey v))
      ∧ sortInV8ObjectInsertionOrder ["b", "2", "a", "0", "10"] (fun s => s)
          = ["0", "2", "10", "b", "a"] := by
  haveI : IsTotal T (fun a b => parseIntBase10 (toKey a) ≤ parseIntBase10 (toKey b)) :=
    ⟨fun a b => Nat.le_total _ _⟩
  haveI : IsTrans T (fun a b => parseIntBase10 (toKey a) ≤ parseIntBase10 (toKey b)) :=
    ⟨fun a b c => Nat.le_trans⟩
  have hdef : sortInV8ObjectInsertionOrder values toKey =
      ((values.filter (fun v => looksLikeNatural (toKey v))).insertionSort
          (fun a b => parseIntBase10 (toKey a) ≤ parseIntBase10 (toKey b)))
        ++ values.filter (fun v => !looksLikeNatural (toKey v)) := by
    unfold sortInV8ObjectInsertionOrder
    rw [List.partition_eq_filter_filter]
    rfl
  have hlen : ((values.filter (fun v => looksLikeNatural (toKey v))).insertionSort
      (fun a b => parseIntBase10 (toKey a) ≤ parseIntBase10 (toKey b))).length
      = (values.filter (fun v => looksLikeNatural (toKey v))).length :=
    (List.perm_insertionSort _ _).length_eq
  have htake : (sortInV8ObjectInsertionOrder values toKey).take
      (values.filter (fun v => looksLikeNatural (toKey v))).length
      = (values.filter (fun v => looksLikeNatural (toKey v))).insertionSort
          (fun a b => parseIntBase10 (toKey a) ≤ parseIntBase10 (toKey b)) := by
    rw [hdef, ← hlen, List.take_left]
  refine ⟨?_, ?_, ?_, by decide⟩
  · rw [htake]
    exact List.perm_insertionSort _ _
  · rw [htake]
    exact List.sorted_insertionSort _ _
  · rw [hdef, ← hlen, List.drop_left]

end TsCollections
